import Mathlib

/-!
# A verification of `gcmap` (`src/lib.rs`)

`gcmap` provides a hash map whose entries are kept alive by caller-held
lease tokens (`MarkOnDrop`).  Dropping a lease sets a shared released
flag and increments a shared reclaim counter; released entries are
evicted lazily by reads and in bulk by an amortized `gc` pass.

The embedding below models shared `Arc<AtomicBool>` flag cells as
indices into a growable list of booleans (`flags`), the table as an
association list of slots `(key, value, flag id)`, and the shared
`Arc<AtomicUsize>` reclaim counter as a natural number.  A `MarkOnDrop`
lease is represented by the index of its flag cell; `Drop::drop` is the
explicit state transformer `dropLease`.
-/

namespace GcMap

/-- One table entry of the underlying map: the Rust table stores
`K ↦ (V, Arc<AtomicBool>)`; the flag cell is modelled by its index
`fid` into the flag store. -/
structure Slot (K V : Type) where
  key : K
  val : V
  fid : Nat
  deriving DecidableEq

variable {K V : Type}

/-- Read a flag cell.  Out-of-range indices read as `false` (they stand
for cells that were never allocated). -/
def flagOf (fl : List Bool) (fid : Nat) : Bool :=
  fl.getD fid false

/-- `std::collections::HashMap::get` on the modelled table: the value
and flag id stored for `k`, if any. -/
def lookup [DecidableEq K] : List (Slot K V) → K → Option (V × Nat)
  | [], _ => none
  | e :: t, k => if e.key = k then some (e.val, e.fid) else lookup t k

/-- `std::collections::HashMap::insert` on the modelled table: replace
the slot for `k` in place, or append a fresh slot. -/
def insertSlot [DecidableEq K] : List (Slot K V) → K → V → Nat → List (Slot K V)
  | [], k, v, fid => [⟨k, v, fid⟩]
  | e :: t, k, v, fid =>
    if e.key = k then ⟨k, v, fid⟩ :: t else e :: insertSlot t k v fid

/-- `std::collections::HashMap::remove` on the modelled table. -/
def eraseSlot [DecidableEq K] : List (Slot K V) → K → List (Slot K V)
  | [], _ => []
  | e :: t, k => if e.key = k then t else e :: eraseSlot t k

/-- The state of a `gcmap::HashMap<K, V>`: field `v` is the underlying
table, `flags` the store of all flag cells ever allocated for this map
(each insertion allocates one), and `gcCtr` the shared reclaim counter
(field `gc` in the source). -/
structure HashMap (K V : Type) where
  v : List (Slot K V)
  flags : List Bool
  gcCtr : Nat
  deriving DecidableEq

/-- `HashMap::new` / `Default::default`: empty table, zero counter. -/
def HashMap.new : HashMap K V :=
  ⟨[], [], 0⟩

/-- `HashMap::len`: physical size of the underlying table. -/
def HashMap.len (m : HashMap K V) : Nat :=
  m.v.length

/-- `MarkOnDrop::drop`: store `true` into the lease's flag cell and
`fetch_add(1)` the shared reclaim counter. -/
def dropLease (m : HashMap K V) (fid : Nat) : HashMap K V :=
  { m with flags := m.flags.set fid true, gcCtr := m.gcCtr + 1 }

/-- `HashMap::gc`: return early while `counter < len / 2`; otherwise
reset the counter to zero and retain exactly the entries whose flag is
not set. -/
def HashMap.gc (m : HashMap K V) : HashMap K V :=
  if m.gcCtr < m.len / 2 then m
  else { m with gcCtr := 0, v := m.v.filter (fun e => !flagOf m.flags e.fid) }

/-- The previous-value result computed by `HashMap::insert`: the value
the table held for `k`, suppressed (`none`) when its flag had already
been released. -/
def prevVal [DecidableEq K] (t : List (Slot K V)) (fl : List Bool) (k : K) : Option V :=
  match lookup t k with
  | none => none
  | some (v0, f0) => if flagOf fl f0 = false then some v0 else none

/-- `HashMap::insert`: run `gc` first, allocate a fresh (unset) flag
cell for the new lease, store `(val, flag)` under `k`, and report the
previous value unless its flag had been released.  Returns the new map
state, the lease (its flag id), and the previous value. -/
def HashMap.insert [DecidableEq K] (m : HashMap K V) (k : K) (val : V) :
    HashMap K V × Nat × Option V :=
  (⟨insertSlot m.gc.v k val m.gc.flags.length, m.gc.flags ++ [false], m.gc.gcCtr⟩,
   m.gc.flags.length, prevVal m.gc.v m.gc.flags k)

/-- The released check `get`/`get_mut`/`entry` perform on `k`: whether
the table holds an entry for `k` whose flag is set. -/
def releasedAt [DecidableEq K] (t : List (Slot K V)) (fl : List Bool) (k : K) : Bool :=
  match lookup t k with
  | some (_, fid) => flagOf fl fid
  | none => false

/-- The lazy eviction `get`/`get_mut`/`entry` perform on `k`: remove the
entry for `k` when its flag is set. -/
def evict [DecidableEq K] (t : List (Slot K V)) (fl : List Bool) (k : K) : List (Slot K V) :=
  if releasedAt t fl k then eraseSlot t k else t

/-- `HashMap::get`: if the entry for `k` exists and its flag is set,
remove it first; then look `k` up again.  Returns the new map state and
the (reference to the) value. -/
def HashMap.get [DecidableEq K] (m : HashMap K V) (k : K) :
    HashMap K V × Option V :=
  ({ m with v := evict m.v m.flags k }, (lookup (evict m.v m.flags k) k).map Prod.fst)

/-- `HashMap::get_mut`: same lazy-eviction semantics as `get`. -/
def HashMap.getMut [DecidableEq K] (m : HashMap K V) (k : K) :
    HashMap K V × Option V :=
  ({ m with v := evict m.v m.flags k }, (lookup (evict m.v m.flags k) k).map Prod.fst)

/-- `HashMap::entry`: run `gc` first, evict the entry for `k` eagerly if
its flag is set, and report the slot content (`some` = Occupied handle,
`none` = Vacant handle) together with the new map state. -/
def HashMap.entry [DecidableEq K] (m : HashMap K V) (k : K) :
    HashMap K V × Option (V × Nat) :=
  ({ m.gc with v := evict m.gc.v m.gc.flags k },
   lookup (evict m.gc.v m.gc.flags k) k)

/-- `Entry::or_insert_with` (via `VacantEntry::insert_with` on the
vacant branch): on Occupied return the existing value without invoking
the factory; on Vacant allocate a fresh lease, invoke the factory once
on it, and store the produced value.  Returns the new map state, the
value now stored under `k`, and whether the factory was invoked. -/
def orInsertWith [DecidableEq K] (m : HashMap K V) (k : K) (f : Nat → V) :
    HashMap K V × V × Bool :=
  match (m.entry k).2 with
  | some (v0, _) => ((m.entry k).1, v0, false)
  | none =>
    (⟨insertSlot (m.entry k).1.v k (f (m.entry k).1.flags.length) (m.entry k).1.flags.length,
      (m.entry k).1.flags ++ [false], (m.entry k).1.gcCtr⟩,
     f (m.entry k).1.flags.length, true)

/-- Number of entries physically present in the table whose flag is
released (the "garbage" not yet evicted). -/
def countReleased (m : HashMap K V) : Nat :=
  m.v.countP (fun e => flagOf m.flags e.fid)

/-- Keys of the modelled table are pairwise distinct: the representation
invariant the association list inherits from the real hash table. -/
def KeysNodup (t : List (Slot K V)) : Prop :=
  (t.map Slot.key).Nodup

instance [DecidableEq K] (t : List (Slot K V)) : Decidable (KeysNodup t) :=
  inferInstanceAs (Decidable (t.map Slot.key).Nodup)

/-- One public-interface step of the system: a map operation or the
drop of a lease (possibly from another thread). -/
inductive Step [DecidableEq K] : HashMap K V → HashMap K V → Prop
  | insert (s : HashMap K V) (k : K) (val : V) : Step s (s.insert k val).1
  | get (s : HashMap K V) (k : K) : Step s (s.get k).1
  | getMut (s : HashMap K V) (k : K) : Step s (s.getMut k).1
  | gcRun (s : HashMap K V) : Step s s.gc
  | entry (s : HashMap K V) (k : K) : Step s (s.entry k).1
  | orInsert (s : HashMap K V) (k : K) (f : Nat → V) : Step s (orInsertWith s k f).1
  | dropL (s : HashMap K V) (fid : Nat) : Step s (dropLease s fid)

/-- States reachable from a fresh map through public operations and
lease drops. -/
inductive Reachable [DecidableEq K] : HashMap K V → Prop
  | new : Reachable HashMap.new
  | step {s s' : HashMap K V} : Reachable s → Step s s' → Reachable s'

/-! ## Flag-store lemmas -/

theorem flagOf_nil (j : Nat) : flagOf [] j = false := by
  cases j <;> rfl

theorem flagOf_append_false (fl : List Bool) (j : Nat) :
    flagOf (fl ++ [false]) j = flagOf fl j := by
  induction fl generalizing j with
  | nil =>
    cases j with
    | zero => rfl
    | succ n => cases n <;> rfl
  | cons b t ih =>
    cases j with
    | zero => rfl
    | succ n => exact ih n

theorem flagOf_out_of_range {fl : List Bool} {j : Nat} (h : fl.length ≤ j) :
    flagOf fl j = false := by
  simp [flagOf, List.getD_eq_getElem?_getD, List.getElem?_eq_none h]

theorem flagOf_set_self {fl : List Bool} {fid : Nat} (h : fid < fl.length) :
    flagOf (fl.set fid true) fid = true := by
  simp [flagOf, List.getD_eq_getElem?_getD, List.getElem?_set_self h]

theorem flagOf_set_ne (fl : List Bool) {i j : Nat} (h : i ≠ j) (b : Bool) :
    flagOf (fl.set i b) j = flagOf fl j := by
  simp [flagOf, List.getD_eq_getElem?_getD, List.getElem?_set_ne h]

theorem flagOf_set_true_of_true {fl : List Bool} {i j : Nat}
    (h : flagOf fl j = true) : flagOf (fl.set i true) j = true := by
  by_cases hij : i = j
  · subst hij
    have hlt : i < fl.length := by
      by_contra hge
      rw [flagOf_out_of_range (Nat.le_of_not_lt hge)] at h
      exact Bool.false_ne_true h
    exact flagOf_set_self (by simpa using hlt)
  · rw [flagOf_set_ne fl hij]; exact h

/-! ## Association-list lemmas -/

theorem lookup_eq_none [DecidableEq K] {t : List (Slot K V)} {k : K} :
    lookup t k = none ↔ k ∉ t.map Slot.key := by
  induction t with
  | nil => simp [lookup]
  | cons e t ih =>
    by_cases h : e.key = k
    · simp [lookup, h]
    · simp [lookup, h, ih]
      exact fun _ hk => h hk.symm

theorem lookup_mem [DecidableEq K] {t : List (Slot K V)} {k : K} {v : V} {f : Nat}
    (h : lookup t k = some (v, f)) : (⟨k, v, f⟩ : Slot K V) ∈ t := by
  induction t with
  | nil => simp [lookup] at h
  | cons e t ih =>
    by_cases he : e.key = k
    · rw [lookup, if_pos he] at h
      have : ({ key := k, val := v, fid := f } : Slot K V) = e := by
        cases e
        simp_all
      rw [this]
      exact List.mem_cons_self _ _
    · rw [lookup, if_neg he] at h
      exact List.mem_cons_of_mem _ (ih h)

theorem lookup_insertSlot_self [DecidableEq K] (t : List (Slot K V)) (k : K) (v : V) (fid : Nat) :
    lookup (insertSlot t k v fid) k = some (v, fid) := by
  induction t with
  | nil => simp [insertSlot, lookup]
  | cons e t ih =>
    by_cases h : e.key = k
    · simp [insertSlot, h, lookup]
    · simp [insertSlot, h, lookup, ih]

theorem mem_insertSlot [DecidableEq K] {t : List (Slot K V)} {k : K} {v : V} {fid : Nat}
    {e : Slot K V} (h : e ∈ insertSlot t k v fid) : e = ⟨k, v, fid⟩ ∨ e ∈ t := by
  induction t with
  | nil => simpa [insertSlot] using h
  | cons a t ih =>
    by_cases ha : a.key = k
    · rw [insertSlot, if_pos ha] at h
      rcases List.mem_cons.mp h with h | h
      · exact Or.inl h
      · exact Or.inr (List.mem_cons_of_mem _ h)
    · rw [insertSlot, if_neg ha] at h
      rcases List.mem_cons.mp h with h | h
      · exact Or.inr (h ▸ List.mem_cons_self _ _)
      · rcases ih h with h | h
        · exact Or.inl h
        · exact Or.inr (List.mem_cons_of_mem _ h)

theorem length_insertSlot_ge [DecidableEq K] (t : List (Slot K V)) (k : K) (v : V) (fid : Nat) :
    t.length ≤ (insertSlot t k v fid).length := by
  induction t with
  | nil => simp [insertSlot]
  | cons a t ih =>
    by_cases ha : a.key = k
    · simp [insertSlot, ha]
    · simpa [insertSlot, ha] using ih

theorem eraseSlot_sublist [DecidableEq K] (t : List (Slot K V)) (k : K) :
    (eraseSlot t k).Sublist t := by
  induction t with
  | nil => simp [eraseSlot]
  | cons a t ih =>
    by_cases ha : a.key = k
    · rw [eraseSlot, if_pos ha]
      exact (List.sublist_cons_self a t)
    · rw [eraseSlot, if_neg ha]
      exact ih.cons₂ a

theorem lookup_eraseSlot_self [DecidableEq K] {t : List (Slot K V)} {k : K}
    (h : KeysNodup t) : lookup (eraseSlot t k) k = none := by
  induction t with
  | nil => simp [eraseSlot, lookup]
  | cons a t ih =>
    obtain ⟨hka, hnd⟩ := List.nodup_cons.mp h
    by_cases ha : a.key = k
    · rw [eraseSlot, if_pos ha]
      exact lookup_eq_none.mpr (ha ▸ hka)
    · rw [eraseSlot, if_neg ha, lookup, if_neg ha]
      exact ih hnd

theorem length_eraseSlot [DecidableEq K] {t : List (Slot K V)} {k : K} {p : V × Nat}
    (h : lookup t k = some p) : (eraseSlot t k).length + 1 = t.length := by
  induction t with
  | nil => simp [lookup] at h
  | cons a t ih =>
    by_cases ha : a.key = k
    · simp [eraseSlot, ha]
    · rw [lookup, if_neg ha] at h
      simpa [eraseSlot, ha] using ih h

theorem lookup_filter_some [DecidableEq K] {t : List (Slot K V)} {k : K} {v : V} {f : Nat}
    {q : Slot K V → Bool} (h : lookup t k = some (v, f)) (hq : q ⟨k, v, f⟩ = true) :
    lookup (t.filter q) k = some (v, f) := by
  induction t with
  | nil => simp [lookup] at h
  | cons a t ih =>
    by_cases ha : a.key = k
    · rw [lookup, if_pos ha] at h
      obtain ⟨hv, hf⟩ := Prod.mk.injEq .. ▸ Option.some.injEq .. ▸ h
      have hak : a = ⟨k, v, f⟩ := by cases a; simp_all
      subst hak
      rw [List.filter_cons_of_pos hq, lookup, if_pos rfl]
    · rw [lookup, if_neg ha] at h
      by_cases hqa : q a = true
      · rw [List.filter_cons_of_pos hqa, lookup, if_neg ha]
        exact ih h
      · rw [List.filter_cons_of_neg (by simpa using hqa)]
        exact ih h

theorem lookup_filter_none [DecidableEq K] {t : List (Slot K V)} {k : K}
    {q : Slot K V → Bool} (h : lookup t k = none) : lookup (t.filter q) k = none := by
  rw [lookup_eq_none] at h ⊢
  exact fun hmem => h (((t.filter_sublist).map Slot.key).subset hmem)

theorem lookup_filter_of_neg [DecidableEq K] {t : List (Slot K V)} {k : K} {v : V} {f : Nat}
    {q : Slot K V → Bool} (hnd : KeysNodup t) (h : lookup t k = some (v, f))
    (hq : q ⟨k, v, f⟩ = false) : lookup (t.filter q) k = none := by
  induction t with
  | nil => simp [lookup] at h
  | cons a t ih =>
    obtain ⟨hka, hnd'⟩ := List.nodup_cons.mp hnd
    by_cases ha : a.key = k
    · rw [lookup, if_pos ha] at h
      have hak : a = ⟨k, v, f⟩ := by cases a; simp_all
      subst hak
      rw [List.filter_cons_of_neg (by simpa using hq)]
      exact lookup_filter_none (lookup_eq_none.mpr hka)
    · rw [lookup, if_neg ha] at h
      by_cases hqa : q a = true
      · rw [List.filter_cons_of_pos hqa, lookup, if_neg ha]
        exact ih hnd' h
      · rw [List.filter_cons_of_neg (by simpa using hqa)]
        exact ih hnd' h

theorem keysNodup_insertSlot [DecidableEq K] {t : List (Slot K V)} (k : K) (v : V) (fid : Nat)
    (h : KeysNodup t) : KeysNodup (insertSlot t k v fid) := by
  induction t with
  | nil => simp [insertSlot, KeysNodup]
  | cons a t ih =>
    obtain ⟨hka, hnd⟩ := List.nodup_cons.mp h
    by_cases ha : a.key = k
    · rw [insertSlot, if_pos ha]
      exact List.nodup_cons.mpr ⟨ha ▸ hka, hnd⟩
    · rw [insertSlot, if_neg ha]
      refine List.nodup_cons.mpr ⟨?_, ih hnd⟩
      intro hmem
      rcases List.mem_map.mp hmem with ⟨e, he, hkey⟩
      rcases mem_insertSlot he with rfl | he'
      · exact ha hkey.symm
      · exact hka (List.mem_map.mpr ⟨e, he', hkey⟩)

theorem keysNodup_sublist {t t' : List (Slot K V)} (h : t'.Sublist t) (hnd : KeysNodup t) :
    KeysNodup t' :=
  List.Nodup.sublist (h.map Slot.key) hnd

theorem countP_insertSlot_le [DecidableEq K] {t : List (Slot K V)} {k : K} {v : V} {fid : Nat}
    {p : Slot K V → Bool} (hp : p ⟨k, v, fid⟩ = false) :
    (insertSlot t k v fid).countP p ≤ t.countP p := by
  induction t with
  | nil => simp [insertSlot, List.countP_cons, hp]
  | cons a t ih =>
    by_cases ha : a.key = k
    · rw [insertSlot, if_pos ha, List.countP_cons, List.countP_cons, hp]
      simp
    · rw [insertSlot, if_neg ha, List.countP_cons, List.countP_cons]
      exact Nat.add_le_add_right ih _

theorem countP_filter_not (t : List (Slot K V)) (p : Slot K V → Bool) :
    (t.filter (fun e => !p e)).countP p = 0 := by
  rw [List.countP_eq_zero]
  intro a ha
  have := (List.mem_filter.mp ha).2
  simpa using this

/-! ## The map invariant -/

theorem evict_sublist [DecidableEq K] (t : List (Slot K V)) (fl : List Bool) (k : K) :
    (evict t fl k).Sublist t := by
  rw [evict]
  split
  · exact eraseSlot_sublist t k
  · exact List.Sublist.refl t

/-- Every flag id stored in the table indexes an allocated flag cell. -/
def FidsOk (m : HashMap K V) : Prop :=
  ∀ e ∈ m.v, e.fid < m.flags.length

/-- No two table entries share a flag cell. -/
def FidsNodup (m : HashMap K V) : Prop :=
  (m.v.map Slot.fid).Nodup

/-- The state invariant maintained by every operation: flag ids are
allocated and pairwise distinct, and the garbage physically present
never exceeds the reclaim counter. -/
def Inv (m : HashMap K V) : Prop :=
  FidsOk m ∧ FidsNodup m ∧ countReleased m ≤ m.gcCtr

theorem inv_new : Inv (HashMap.new : HashMap K V) := by
  refine ⟨?_, ?_, ?_⟩ <;> simp [HashMap.new, FidsOk, FidsNodup, countReleased]

theorem inv_table_sublist {m : HashMap K V} {t : List (Slot K V)}
    (h : t.Sublist m.v) (hm : Inv m) : Inv { m with v := t } := by
  obtain ⟨h1, h2, h3⟩ := hm
  refine ⟨fun e he => h1 e (h.subset he), ?_, ?_⟩
  · exact List.Nodup.sublist (h.map Slot.fid) h2
  · exact le_trans (List.Sublist.countP_le _ h) h3

theorem inv_gc {m : HashMap K V} (hm : Inv m) : Inv m.gc := by
  rw [HashMap.gc]
  split
  · exact hm
  · obtain ⟨h1, h2, h3⟩ := hm
    refine ⟨?_, ?_, ?_⟩
    · intro e he
      exact h1 e ((m.v.filter_sublist).subset he)
    · exact List.Nodup.sublist ((m.v.filter_sublist).map Slot.fid) h2
    · exact le_of_eq (countP_filter_not m.v _)

theorem fidsNodup_insertSlot [DecidableEq K] {t : List (Slot K V)} {k : K} {v : V} {fid : Nat}
    (hnew : ∀ e ∈ t, e.fid ≠ fid) (hnd : (t.map Slot.fid).Nodup) :
    ((insertSlot t k v fid).map Slot.fid).Nodup := by
  induction t with
  | nil => simp [insertSlot]
  | cons a t ih =>
    obtain ⟨hfa, hnd'⟩ := List.nodup_cons.mp hnd
    by_cases ha : a.key = k
    · rw [insertSlot, if_pos ha]
      simp only [List.map_cons]
      refine List.nodup_cons.mpr ⟨?_, hnd'⟩
      intro hmem
      rcases List.mem_map.mp hmem with ⟨e, he, hfid⟩
      exact hnew e (List.mem_cons_of_mem _ he) hfid
    · rw [insertSlot, if_neg ha]
      simp only [List.map_cons]
      refine List.nodup_cons.mpr
        ⟨?_, ih (fun e he => hnew e (List.mem_cons_of_mem _ he)) hnd'⟩
      intro hmem
      rcases List.mem_map.mp hmem with ⟨e, he, hfid⟩
      rcases mem_insertSlot he with rfl | he'
      · exact hnew a (List.mem_cons_self _ _) hfid.symm
      · exact hfa (List.mem_map.mpr ⟨e, he', hfid⟩)

theorem inv_insertRaw [DecidableEq K] {m : HashMap K V} (hm : Inv m) (k : K) (val : V) :
    Inv ⟨insertSlot m.v k val m.flags.length, m.flags ++ [false], m.gcCtr⟩ := by
  obtain ⟨h1, h2, h3⟩ := hm
  refine ⟨?_, ?_, ?_⟩
  · intro e he
    rcases mem_insertSlot he with rfl | he'
    · simp
    · calc e.fid < m.flags.length := h1 e he'
        _ ≤ (m.flags ++ [false]).length := by simp
  · exact fidsNodup_insertSlot (fun e he => Nat.ne_of_lt (h1 e he)) h2
  · simp only [countReleased]
    calc (insertSlot m.v k val m.flags.length).countP
          (fun e => flagOf (m.flags ++ [false]) e.fid)
        = (insertSlot m.v k val m.flags.length).countP (fun e => flagOf m.flags e.fid) :=
          List.countP_congr (fun x _ => by rw [flagOf_append_false])
      _ ≤ m.v.countP (fun e => flagOf m.flags e.fid) :=
          countP_insertSlot_le (flagOf_out_of_range (le_refl _))
      _ ≤ m.gcCtr := h3

theorem inv_insert [DecidableEq K] {m : HashMap K V} (hm : Inv m) (k : K) (val : V) :
    Inv (m.insert k val).1 :=
  inv_insertRaw (inv_gc hm) k val

theorem inv_get [DecidableEq K] {m : HashMap K V} (hm : Inv m) (k : K) :
    Inv (m.get k).1 :=
  inv_table_sublist (evict_sublist m.v m.flags k) hm

theorem inv_getMut [DecidableEq K] {m : HashMap K V} (hm : Inv m) (k : K) :
    Inv (m.getMut k).1 :=
  inv_table_sublist (evict_sublist m.v m.flags k) hm

theorem inv_entry [DecidableEq K] {m : HashMap K V} (hm : Inv m) (k : K) :
    Inv (m.entry k).1 :=
  inv_table_sublist (evict_sublist m.gc.v m.gc.flags k) (inv_gc hm)

theorem inv_orInsertWith [DecidableEq K] {m : HashMap K V} (hm : Inv m) (k : K) (f : Nat → V) :
    Inv (orInsertWith m k f).1 := by
  rw [orInsertWith]
  split
  · exact inv_entry hm k
  · exact inv_insertRaw (inv_entry hm k) k _

theorem countP_set_true_le {t : List (Slot K V)} {fl : List Bool} {fid : Nat}
    (hnd : (t.map Slot.fid).Nodup) :
    t.countP (fun e => flagOf (fl.set fid true) e.fid)
      ≤ t.countP (fun e => flagOf fl e.fid) + 1 := by
  induction t with
  | nil => simp
  | cons a t ih =>
    obtain ⟨hfa, hnd'⟩ := List.nodup_cons.mp hnd
    by_cases hafid : a.fid = fid
    · subst hafid
      rw [List.countP_cons, List.countP_cons]
      have htail : t.countP (fun e => flagOf (fl.set a.fid true) e.fid)
          = t.countP (fun e => flagOf fl e.fid) := by
        refine List.countP_congr (fun e he => ?_)
        have hne : a.fid ≠ e.fid := fun h => hfa (List.mem_map.mpr ⟨e, he, h.symm⟩)
        rw [flagOf_set_ne fl hne]
      rw [htail]
      have hone : (if flagOf (fl.set a.fid true) a.fid = true then 1 else 0) ≤ 1 := by
        split <;> simp
      omega
    · rw [List.countP_cons, List.countP_cons,
        flagOf_set_ne fl (fun h => hafid h.symm)]
      have := ih hnd'
      omega

theorem inv_dropLease {m : HashMap K V} (hm : Inv m) (fid : Nat) :
    Inv (dropLease m fid) := by
  obtain ⟨h1, h2, h3⟩ := hm
  refine ⟨?_, h2, ?_⟩
  · intro e he
    simpa [dropLease] using h1 e he
  · simp only [dropLease, countReleased]
    calc m.v.countP (fun e => flagOf (m.flags.set fid true) e.fid)
        ≤ m.v.countP (fun e => flagOf m.flags e.fid) + 1 := countP_set_true_le h2
      _ ≤ m.gcCtr + 1 := Nat.add_le_add_right h3 1

theorem inv_step [DecidableEq K] {s s' : HashMap K V} (hs : Inv s) (h : Step s s') :
    Inv s' := by
  cases h with
  | insert k val => exact inv_insert hs k val
  | get k => exact inv_get hs k
  | getMut k => exact inv_getMut hs k
  | gcRun => exact inv_gc hs
  | entry k => exact inv_entry hs k
  | orInsert k f => exact inv_orInsertWith hs k f
  | dropL fid => exact inv_dropLease hs fid

theorem reachable_inv [DecidableEq K] {s : HashMap K V} (h : Reachable s) : Inv s := by
  induction h with
  | new => exact inv_new
  | step _ hstep ih => exact inv_step ih hstep

/-! ## Operation-level helper lemmas -/

theorem gc_flags (m : HashMap K V) : m.gc.flags = m.flags := by
  rw [HashMap.gc]
  split <;> rfl

theorem gc_table_sublist (m : HashMap K V) : (m.gc.v).Sublist m.v := by
  rw [HashMap.gc]
  split
  · exact List.Sublist.refl _
  · exact m.v.filter_sublist

theorem lookup_gc_of_unreleased [DecidableEq K] {m : HashMap K V} {k : K} {v : V} {f : Nat}
    (h : lookup m.v k = some (v, f)) (hf : flagOf m.flags f = false) :
    lookup m.gc.v k = some (v, f) := by
  rw [HashMap.gc]
  split
  · exact h
  · exact lookup_filter_some h (by simp [hf])

theorem lookup_gc_of_released [DecidableEq K] {m : HashMap K V} {k : K} {v : V} {f : Nat}
    (hnd : KeysNodup m.v) (h : lookup m.v k = some (v, f)) (hf : flagOf m.flags f = true) :
    lookup m.gc.v k = some (v, f) ∨ lookup m.gc.v k = none := by
  rw [HashMap.gc]
  split
  · exact Or.inl h
  · exact Or.inr (lookup_filter_of_neg hnd h (by simp [hf]))

theorem lookup_gc_of_none [DecidableEq K] {m : HashMap K V} {k : K}
    (h : lookup m.v k = none) : lookup m.gc.v k = none := by
  rw [HashMap.gc]
  split
  · exact h
  · exact lookup_filter_none h

theorem prevVal_of_live [DecidableEq K] {t : List (Slot K V)} {fl : List Bool} {k : K}
    {v : V} {f : Nat} (h : lookup t k = some (v, f)) (hf : flagOf fl f = false) :
    prevVal t fl k = some v := by
  simp [prevVal, h, hf]

theorem prevVal_of_released [DecidableEq K] {t : List (Slot K V)} {fl : List Bool} {k : K}
    {v : V} {f : Nat} (h : lookup t k = some (v, f)) (hf : flagOf fl f = true) :
    prevVal t fl k = none := by
  simp [prevVal, h, hf]

theorem prevVal_of_none [DecidableEq K] {t : List (Slot K V)} {fl : List Bool} {k : K}
    (h : lookup t k = none) : prevVal t fl k = none := by
  simp [prevVal, h]

theorem evict_of_live [DecidableEq K] {t : List (Slot K V)} {fl : List Bool} {k : K}
    {v : V} {f : Nat} (h : lookup t k = some (v, f)) (hf : flagOf fl f = false) :
    evict t fl k = t := by
  simp [evict, releasedAt, h, hf]

theorem evict_of_none [DecidableEq K] {t : List (Slot K V)} {fl : List Bool} {k : K}
    (h : lookup t k = none) : evict t fl k = t := by
  simp [evict, releasedAt, h]

theorem lookup_evict_released [DecidableEq K] {t : List (Slot K V)} {fl : List Bool} {k : K}
    {v : V} {f : Nat} (hnd : KeysNodup t) (h : lookup t k = some (v, f))
    (hf : flagOf fl f = true) : lookup (evict t fl k) k = none := by
  simp [evict, releasedAt, h, hf]
  exact lookup_eraseSlot_self hnd

theorem evict_len [DecidableEq K] (t : List (Slot K V)) (fl : List Bool) (k : K) :
    (evict t fl k).length = t.length ∨
    ((evict t fl k).length + 1 = t.length ∧
      ∃ v0 f0, lookup t k = some (v0, f0) ∧ flagOf fl f0 = true) := by
  cases hl : lookup t k with
  | none => exact Or.inl (by rw [evict_of_none hl])
  | some p =>
    obtain ⟨v0, f0⟩ := p
    cases hf : flagOf fl f0 with
    | false => exact Or.inl (by rw [evict_of_live hl hf])
    | true =>
      refine Or.inr ⟨?_, v0, f0, rfl, hf⟩
      have : evict t fl k = eraseSlot t k := by simp [evict, releasedAt, hl, hf]
      rw [this]
      exact length_eraseSlot hl

theorem entry_of_live [DecidableEq K] {s : HashMap K V} {k : K} {v0 : V} {f0 : Nat}
    (h : lookup s.v k = some (v0, f0)) (hf : flagOf s.flags f0 = false) :
    (s.entry k).2 = some (v0, f0) ∧ lookup (s.entry k).1.v k = some (v0, f0) := by
  have h1 : lookup s.gc.v k = some (v0, f0) := lookup_gc_of_unreleased h hf
  have hf1 : flagOf s.gc.flags f0 = false := by rw [gc_flags]; exact hf
  have hev : evict s.gc.v s.gc.flags k = s.gc.v := evict_of_live h1 hf1
  constructor
  · show lookup (evict s.gc.v s.gc.flags k) k = some (v0, f0)
    rw [hev]; exact h1
  · show lookup (evict s.gc.v s.gc.flags k) k = some (v0, f0)
    rw [hev]; exact h1

theorem entry_of_dead [DecidableEq K] {s : HashMap K V} {k : K}
    (hnd : KeysNodup s.v)
    (h : ∀ v0 f0, lookup s.v k = some (v0, f0) → flagOf s.flags f0 = true) :
    (s.entry k).2 = none := by
  show lookup (evict s.gc.v s.gc.flags k) k = none
  cases hl : lookup s.v k with
  | none =>
    have h1 : lookup s.gc.v k = none := lookup_gc_of_none hl
    rw [evict_of_none h1]; exact h1
  | some p =>
    obtain ⟨v0, f0⟩ := p
    have hf := h v0 f0 hl
    rcases lookup_gc_of_released hnd hl hf with h1 | h1
    · exact lookup_evict_released (keysNodup_sublist (gc_table_sublist s) hnd) h1
        (by rw [gc_flags]; exact hf)
    · rw [evict_of_none h1]; exact h1

/-! ## The claims -/

/-- Claim C1: for every key `k` and value `v`, after `insert(k, v)` and
while the returned lease has not been dropped, `get(k)` returns `v`. -/
theorem insert_then_get_returns_value [DecidableEq K] (s : HashMap K V) (k : K) (val : V) :
    ((s.insert k val).1.get k).2 = some val := by
  have hl : lookup (s.insert k val).1.v k = some (val, s.gc.flags.length) :=
    lookup_insertSlot_self s.gc.v k val s.gc.flags.length
  have hf : flagOf (s.insert k val).1.flags s.gc.flags.length = false := by
    show flagOf (s.gc.flags ++ [false]) s.gc.flags.length = false
    rw [flagOf_append_false]
    exact flagOf_out_of_range (le_refl _)
  show (lookup (evict (s.insert k val).1.v (s.insert k val).1.flags k) k).map Prod.fst
      = some val
  rw [evict_of_live hl hf, hl]
  rfl

/-- A freshly inserted slot whose lease is then dropped is reported
absent by `get` and physically removed by it.  This is the common core
of both lease-acquisition paths in claim C2. -/
theorem get_after_drop_raw [DecidableEq K] {m : HashMap K V} (k : K) (val : V)
    (hnd : KeysNodup m.v) :
    ((dropLease ⟨insertSlot m.v k val m.flags.length, m.flags ++ [false], m.gcCtr⟩
        m.flags.length).get k).2 = none ∧
    lookup ((dropLease ⟨insertSlot m.v k val m.flags.length, m.flags ++ [false], m.gcCtr⟩
        m.flags.length).get k).1.v k = none := by
  have hnd1 : KeysNodup (insertSlot m.v k val m.flags.length) :=
    keysNodup_insertSlot k val m.flags.length hnd
  have hl : lookup (insertSlot m.v k val m.flags.length) k = some (val, m.flags.length) :=
    lookup_insertSlot_self m.v k val m.flags.length
  have hf : flagOf ((m.flags ++ [false]).set m.flags.length true) m.flags.length = true :=
    flagOf_set_self (by simp)
  have hev : evict (insertSlot m.v k val m.flags.length)
      ((m.flags ++ [false]).set m.flags.length true) k
      = eraseSlot (insertSlot m.v k val m.flags.length) k := by
    simp only [evict, releasedAt, hl, hf, if_true]
  constructor
  · show (lookup (evict (insertSlot m.v k val m.flags.length)
        ((m.flags ++ [false]).set m.flags.length true) k) k).map Prod.fst = none
    rw [hev, lookup_eraseSlot_self hnd1]
    rfl
  · show lookup (evict (insertSlot m.v k val m.flags.length)
        ((m.flags ++ [false]).set m.flags.length true) k) k = none
    rw [hev]
    exact lookup_eraseSlot_self hnd1

/-- Claim C2: after the lease returned by the most recent `insert(k, v)`
(or by an `entry(k)` vacant insertion) is dropped, `get(k)` reports
absent even without an explicit `gc()`, and that `get` physically
removes the released entry from the table first. -/
theorem get_after_drop_absent_and_evicts [DecidableEq K] (s : HashMap K V) (k : K) (val : V)
    (f : Nat → V) (hnd : KeysNodup s.v) :
    (((dropLease (s.insert k val).1 (s.insert k val).2.1).get k).2 = none ∧
      lookup ((dropLease (s.insert k val).1 (s.insert k val).2.1).get k).1.v k = none) ∧
    ((orInsertWith s k f).2.2 = true →
      ((dropLease (orInsertWith s k f).1 (s.entry k).1.flags.length).get k).2 = none ∧
      lookup ((dropLease (orInsertWith s k f).1 (s.entry k).1.flags.length).get k).1.v k
        = none) := by
  constructor
  · exact get_after_drop_raw k val (keysNodup_sublist (gc_table_sublist s) hnd)
  · intro hinv
    cases hc : (s.entry k).2 with
    | some p =>
      obtain ⟨v0, f0⟩ := p
      have hor : orInsertWith s k f = ((s.entry k).1, v0, false) := by
        simp only [orInsertWith, hc]
      rw [hor] at hinv
      exact absurd hinv (by simp)
    | none =>
      have hor : orInsertWith s k f
          = (⟨insertSlot (s.entry k).1.v k (f (s.entry k).1.flags.length)
                (s.entry k).1.flags.length,
              (s.entry k).1.flags ++ [false], (s.entry k).1.gcCtr⟩,
             f (s.entry k).1.flags.length, true) := by
        simp only [orInsertWith, hc]
      rw [hor]
      exact get_after_drop_raw k (f (s.entry k).1.flags.length)
        (keysNodup_sublist (evict_sublist s.gc.v s.gc.flags k)
          (keysNodup_sublist (gc_table_sublist s) hnd))

/-- Claim C3: re-inserting over a key whose prior lease is still live
reports the previous value `some v1`; re-inserting after that lease was
dropped suppresses the stale value and reports `none`. -/
theorem insert_previous_value [DecidableEq K] (s : HashMap K V) (k : K) (v1 v2 : V)
    (hnd : KeysNodup s.v) :
    ((s.insert k v1).1.insert k v2).2.2 = some v1 ∧
    ((dropLease (s.insert k v1).1 (s.insert k v1).2.1).insert k v2).2.2 = none := by
  have hnd1 : KeysNodup (s.insert k v1).1.v :=
    keysNodup_insertSlot k v1 s.gc.flags.length (keysNodup_sublist (gc_table_sublist s) hnd)
  have hl : lookup (s.insert k v1).1.v k = some (v1, s.gc.flags.length) :=
    lookup_insertSlot_self s.gc.v k v1 s.gc.flags.length
  have hf : flagOf (s.insert k v1).1.flags s.gc.flags.length = false := by
    show flagOf (s.gc.flags ++ [false]) s.gc.flags.length = false
    rw [flagOf_append_false]
    exact flagOf_out_of_range (le_refl _)
  constructor
  · show prevVal (s.insert k v1).1.gc.v (s.insert k v1).1.gc.flags k = some v1
    exact prevVal_of_live (lookup_gc_of_unreleased hl hf) (by rw [gc_flags]; exact hf)
  · show prevVal (dropLease (s.insert k v1).1 (s.insert k v1).2.1).gc.v
        (dropLease (s.insert k v1).1 (s.insert k v1).2.1).gc.flags k = none
    have hf2 : flagOf (dropLease (s.insert k v1).1 (s.insert k v1).2.1).flags
        s.gc.flags.length = true := by
      show flagOf ((s.gc.flags ++ [false]).set s.gc.flags.length true) s.gc.flags.length = true
      exact flagOf_set_self (by simp)
    have hl2 : lookup (dropLease (s.insert k v1).1 (s.insert k v1).2.1).v k
        = some (v1, s.gc.flags.length) := hl
    have hnd2 : KeysNodup (dropLease (s.insert k v1).1 (s.insert k v1).2.1).v := hnd1
    rcases lookup_gc_of_released hnd2 hl2 hf2 with h | h
    · exact prevVal_of_released h (by rw [gc_flags]; exact hf2)
    · exact prevVal_of_none h

/-- Witness for claim C2 at a concrete map, on both acquisition paths. -/
theorem get_after_drop_witness :
    (((dropLease ((HashMap.new : HashMap Nat Nat).insert 0 5).1
        ((HashMap.new : HashMap Nat Nat).insert 0 5).2.1).get 0).2 = none ∧
      lookup ((dropLease ((HashMap.new : HashMap Nat Nat).insert 0 5).1
        ((HashMap.new : HashMap Nat Nat).insert 0 5).2.1).get 0).1.v 0 = none) ∧
    (((dropLease (orInsertWith (HashMap.new : HashMap Nat Nat) 0 (fun _ => 7)).1
        ((HashMap.new : HashMap Nat Nat).entry 0).1.flags.length).get 0).2 = none ∧
      lookup ((dropLease (orInsertWith (HashMap.new : HashMap Nat Nat) 0 (fun _ => 7)).1
        ((HashMap.new : HashMap Nat Nat).entry 0).1.flags.length).get 0).1.v 0 = none) :=
  ⟨(get_after_drop_absent_and_evicts HashMap.new 0 5 (fun _ => 7) (by decide)).1,
   (get_after_drop_absent_and_evicts HashMap.new 0 5 (fun _ => 7) (by decide)).2 (by decide)⟩

/-- Witness for claim C3 at a concrete map. -/
theorem insert_previous_value_witness :
    (((HashMap.new : HashMap Nat Nat).insert 0 1).1.insert 0 2).2.2 = some 1 ∧
    ((dropLease ((HashMap.new : HashMap Nat Nat).insert 0 1).1
        ((HashMap.new : HashMap Nat Nat).insert 0 1).2.1).insert 0 2).2.2 = none :=
  insert_previous_value HashMap.new 0 1 2 (by decide)

/-- Claim C4: `gc()` is a no-op when the counter is strictly below
`len() / 2`; otherwise it resets the counter to zero and removes from
the table exactly the entries whose flag is released, keeping every
unreleased entry. -/
theorem gc_trigger_semantics (s : HashMap K V) :
    (s.gcCtr < s.len / 2 → s.gc = s) ∧
    (s.len / 2 ≤ s.gcCtr →
      s.gc.gcCtr = 0 ∧
      ∀ e : Slot K V, e ∈ s.gc.v ↔ (e ∈ s.v ∧ flagOf s.flags e.fid = false)) := by
  constructor
  · intro h
    rw [HashMap.gc, if_pos h]
  · intro h
    rw [HashMap.gc, if_neg (Nat.not_lt.mpr h)]
    refine ⟨rfl, fun e => ?_⟩
    simp [List.mem_filter]

/-- Witness for claim C4: a no-op call on a half-full table and a full
pass on a released singleton. -/
theorem gc_trigger_semantics_witness :
    (⟨[⟨0, 0, 0⟩, ⟨1, 1, 1⟩, ⟨2, 2, 2⟩, ⟨3, 3, 3⟩], [true, false, false, false], 1⟩ :
        HashMap Nat Nat).gc
      = ⟨[⟨0, 0, 0⟩, ⟨1, 1, 1⟩, ⟨2, 2, 2⟩, ⟨3, 3, 3⟩], [true, false, false, false], 1⟩ ∧
    ((⟨[⟨0, 5, 0⟩], [true], 1⟩ : HashMap Nat Nat).gc.gcCtr = 0 ∧
      ∀ e : Slot Nat Nat, e ∈ (⟨[⟨0, 5, 0⟩], [true], 1⟩ : HashMap Nat Nat).gc.v ↔
        (e ∈ [(⟨0, 5, 0⟩ : Slot Nat Nat)] ∧ flagOf [true] e.fid = false)) :=
  ⟨(gc_trigger_semantics _).1 (by decide), (gc_trigger_semantics _).2 (by decide)⟩

/-- Claim C5 counterexample: a reachable state (insert a key, drop its
lease, let `get` evict the entry) whose reclaim counter exceeds the
number of released entries present, refuting "counter ≤ garbage". -/
theorem counter_exceeds_garbage :
    Reachable (((dropLease ((HashMap.new : HashMap Nat Nat).insert 0 0).1 0).get 0).1) ∧
    ¬ ((((dropLease ((HashMap.new : HashMap Nat Nat).insert 0 0).1 0).get 0).1).gcCtr
        ≤ countReleased (((dropLease ((HashMap.new : HashMap Nat Nat).insert 0 0).1 0).get 0).1)) := by
  constructor
  · exact Reachable.step
      (Reachable.step (Reachable.step Reachable.new (Step.insert _ 0 0)) (Step.dropL _ 0))
      (Step.get _ 0)
  · decide

/-- Claim C5 (amended): in every reachable state the number of entries
currently in the table whose flag is released is at most the reclaim
counter — the counter is an upper bound on the garbage physically
present, not a lower bound. -/
theorem garbage_le_counter [DecidableEq K] {s : HashMap K V} (h : Reachable s) :
    countReleased s ≤ s.gcCtr :=
  (reachable_inv h).2.2

/-- Witness for the amended claim C5 at a concrete reachable state. -/
theorem garbage_le_counter_witness :
    countReleased (dropLease ((HashMap.new : HashMap Nat Nat).insert 0 0).1 0)
      ≤ (dropLease ((HashMap.new : HashMap Nat Nat).insert 0 0).1 0).gcCtr :=
  garbage_le_counter
    (Reachable.step (Reachable.step Reachable.new (Step.insert _ 0 0)) (Step.dropL _ 0))

/-- Claim C6: `entry(k).or_insert_with(f)` invokes the factory iff the
slot was vacant or its prior occupant's lease had been released; on an
occupied live slot the factory is not invoked and the existing value is
returned; on the vacant path the stored value is the factory's output
on the fresh lease. -/
theorem or_insert_with_semantics [DecidableEq K] (s : HashMap K V) (k : K) (f : Nat → V)
    (hnd : KeysNodup s.v) :
    ((orInsertWith s k f).2.2 = false ↔
      ∃ v0 f0, lookup s.v k = some (v0, f0) ∧ flagOf s.flags f0 = false) ∧
    (∀ v0 f0, lookup s.v k = some (v0, f0) → flagOf s.flags f0 = false →
      (orInsertWith s k f).2.1 = v0 ∧
      lookup (orInsertWith s k f).1.v k = some (v0, f0)) ∧
    ((orInsertWith s k f).2.2 = true →
      (orInsertWith s k f).2.1 = f (s.entry k).1.flags.length ∧
      lookup (orInsertWith s k f).1.v k
        = some (f (s.entry k).1.flags.length, (s.entry k).1.flags.length)) := by
  by_cases hlive : ∃ v0 f0, lookup s.v k = some (v0, f0) ∧ flagOf s.flags f0 = false
  · obtain ⟨v0, f0, hl, hf⟩ := hlive
    obtain ⟨hent, hlook⟩ := entry_of_live hl hf
    have hor : orInsertWith s k f = ((s.entry k).1, v0, false) := by
      simp only [orInsertWith, hent]
    refine ⟨?_, ?_, ?_⟩
    · rw [hor]
      exact iff_of_true rfl ⟨v0, f0, hl, hf⟩
    · intro v0' f0' hl' hf'
      obtain ⟨hv, hf0⟩ : v0' = v0 ∧ f0' = f0 := by simpa using hl'.symm.trans hl
      subst hv
      subst hf0
      rw [hor]
      exact ⟨rfl, hlook⟩
    · intro htrue
      rw [hor] at htrue
      exact absurd htrue (by simp)
  · have hdead : ∀ v0 f0, lookup s.v k = some (v0, f0) → flagOf s.flags f0 = true := by
      intro v0 f0 hl
      cases hfb : flagOf s.flags f0 with
      | true => rfl
      | false => exact absurd ⟨v0, f0, hl, hfb⟩ hlive
    have hent := entry_of_dead hnd hdead
    have hor : orInsertWith s k f
        = (⟨insertSlot (s.entry k).1.v k (f (s.entry k).1.flags.length)
              (s.entry k).1.flags.length,
            (s.entry k).1.flags ++ [false], (s.entry k).1.gcCtr⟩,
           f (s.entry k).1.flags.length, true) := by
      simp only [orInsertWith, hent]
    refine ⟨?_, ?_, ?_⟩
    · rw [hor]
      exact iff_of_false (by simp) hlive
    · intro v0 f0 hl hf
      exact absurd ⟨v0, f0, hl, hf⟩ hlive
    · intro _
      rw [hor]
      exact ⟨rfl, lookup_insertSlot_self (s.entry k).1.v k _ _⟩

/-- Witness for claim C6 at a concrete map: the vacant path. -/
theorem or_insert_with_witness :
    ((orInsertWith (HashMap.new : HashMap Nat Nat) 1 (fun _ => 7)).2.2 = false ↔
      ∃ v0 f0, lookup (HashMap.new : HashMap Nat Nat).v 1 = some (v0, f0) ∧
        flagOf (HashMap.new : HashMap Nat Nat).flags f0 = false) ∧
    (∀ v0 f0, lookup (HashMap.new : HashMap Nat Nat).v 1 = some (v0, f0) →
      flagOf (HashMap.new : HashMap Nat Nat).flags f0 = false →
      (orInsertWith (HashMap.new : HashMap Nat Nat) 1 (fun _ => 7)).2.1 = v0 ∧
      lookup (orInsertWith (HashMap.new : HashMap Nat Nat) 1 (fun _ => 7)).1.v 1
        = some (v0, f0)) ∧
    ((orInsertWith (HashMap.new : HashMap Nat Nat) 1 (fun _ => 7)).2.2 = true →
      (orInsertWith (HashMap.new : HashMap Nat Nat) 1 (fun _ => 7)).2.1
        = (fun _ => 7) ((HashMap.new : HashMap Nat Nat).entry 1).1.flags.length ∧
      lookup (orInsertWith (HashMap.new : HashMap Nat Nat) 1 (fun _ => 7)).1.v 1
        = some ((fun _ => 7) ((HashMap.new : HashMap Nat Nat).entry 1).1.flags.length,
            ((HashMap.new : HashMap Nat Nat).entry 1).1.flags.length)) :=
  or_insert_with_semantics HashMap.new 1 (fun _ => 7) (by decide)

/-- The four-entry reachable state used to refute claim C7: four live
inserts, then the lease of key 0 is dropped, leaving the counter at 1
while `len() / 2 = 2`. -/
def entryCounterState : HashMap Nat Nat :=
  dropLease ((((HashMap.new.insert 0 0).1.insert 1 1).1.insert 2 2).1.insert 3 3).1 0

/-- Claim C7 counterexample: a reachable state where `entry()` strictly
decreases `len()` although its internal GC pass does not fire (`gc()`
leaves the state unchanged) and no `get`/`get_mut` is involved. -/
theorem entry_shrinks_len_without_gc :
    Reachable entryCounterState ∧
    entryCounterState.gc = entryCounterState ∧
    (entryCounterState.entry 0).1.len < entryCounterState.len := by
  refine ⟨?_, by decide, by decide⟩
  exact Reachable.step (Reachable.step (Reachable.step (Reachable.step
    (Reachable.step Reachable.new (Step.insert _ 0 0)) (Step.insert _ 1 1))
    (Step.insert _ 2 2)) (Step.insert _ 3 3)) (Step.dropL _ 0)

/-- Claim C7 (amended): `len()` never decreases except through a GC
pass (also the one run at the start of `insert`/`entry`) or the
physical eviction of a released entry performed by `get`, `get_mut` or
`entry`: dropping a lease leaves the table unchanged, and the write
part of `insert`/`or_insert_with` never shrinks it. -/
theorem len_decrease_only_gc_or_eviction [DecidableEq K] (s : HashMap K V) (k : K)
    (val : V) (fid : Nat) (f : Nat → V) :
    (dropLease s fid).v = s.v ∧
    s.gc.len ≤ s.len ∧
    s.gc.len ≤ (s.insert k val).1.len ∧
    ((s.get k).1.len = s.len ∨
      ((s.get k).1.len + 1 = s.len ∧
        ∃ v0 f0, lookup s.v k = some (v0, f0) ∧ flagOf s.flags f0 = true)) ∧
    ((s.getMut k).1.len = s.len ∨
      ((s.getMut k).1.len + 1 = s.len ∧
        ∃ v0 f0, lookup s.v k = some (v0, f0) ∧ flagOf s.flags f0 = true)) ∧
    ((s.entry k).1.len = s.gc.len ∨
      ((s.entry k).1.len + 1 = s.gc.len ∧
        ∃ v0 f0, lookup s.gc.v k = some (v0, f0) ∧ flagOf s.gc.flags f0 = true)) ∧
    (s.entry k).1.len ≤ (orInsertWith s k f).1.len := by
  refine ⟨rfl, ?_, ?_, ?_, ?_, ?_, ?_⟩
  · show s.gc.v.length ≤ s.v.length
    exact (gc_table_sublist s).length_le
  · show s.gc.v.length ≤ (insertSlot s.gc.v k val s.gc.flags.length).length
    exact length_insertSlot_ge s.gc.v k val s.gc.flags.length
  · exact evict_len s.v s.flags k
  · exact evict_len s.v s.flags k
  · exact evict_len s.gc.v s.gc.flags k
  · cases hc : (s.entry k).2 with
    | some p =>
      obtain ⟨v0, f0⟩ := p
      have hor : orInsertWith s k f = ((s.entry k).1, v0, false) := by
        simp only [orInsertWith, hc]
      rw [hor]
    | none =>
      have hor : orInsertWith s k f
          = (⟨insertSlot (s.entry k).1.v k (f (s.entry k).1.flags.length)
                (s.entry k).1.flags.length,
              (s.entry k).1.flags ++ [false], (s.entry k).1.gcCtr⟩,
             f (s.entry k).1.flags.length, true) := by
        simp only [orInsertWith, hc]
      rw [hor]
      show (s.entry k).1.v.length ≤ (insertSlot (s.entry k).1.v k _ _).length
      exact length_insertSlot_ge (s.entry k).1.v k _ _

/-- Claim C8: dropping a lease sets its flag to released and increments
the reclaim counter by exactly one, and a released flag is never unset
by any subsequent operation. -/
theorem drop_sets_flag_and_counter [DecidableEq K] (s : HashMap K V) (fid fid2 j : Nat)
    (k : K) (val : V) (f : Nat → V) (hfid : fid < s.flags.length) :
    flagOf (dropLease s fid).flags fid = true ∧
    (dropLease s fid).gcCtr = s.gcCtr + 1 ∧
    (flagOf s.flags j = true →
      flagOf (s.insert k val).1.flags j = true ∧
      flagOf (s.get k).1.flags j = true ∧
      flagOf (s.getMut k).1.flags j = true ∧
      flagOf s.gc.flags j = true ∧
      flagOf (s.entry k).1.flags j = true ∧
      flagOf (orInsertWith s k f).1.flags j = true ∧
      flagOf (dropLease s fid2).flags j = true) := by
  refine ⟨flagOf_set_self hfid, rfl, ?_⟩
  intro hj
  have hgc : flagOf s.gc.flags j = true := by rw [gc_flags]; exact hj
  refine ⟨?_, hj, hj, hgc, hgc, ?_, flagOf_set_true_of_true hj⟩
  · show flagOf (s.gc.flags ++ [false]) j = true
    rw [flagOf_append_false]
    exact hgc
  · cases hc : (s.entry k).2 with
    | some p =>
      obtain ⟨v0, f0⟩ := p
      have hor : orInsertWith s k f = ((s.entry k).1, v0, false) := by
        simp only [orInsertWith, hc]
      rw [hor]
      exact hgc
    | none =>
      have hor : orInsertWith s k f
          = (⟨insertSlot (s.entry k).1.v k (f (s.entry k).1.flags.length)
                (s.entry k).1.flags.length,
              (s.entry k).1.flags ++ [false], (s.entry k).1.gcCtr⟩,
             f (s.entry k).1.flags.length, true) := by
        simp only [orInsertWith, hc]
      rw [hor]
      show flagOf ((s.entry k).1.flags ++ [false]) j = true
      rw [flagOf_append_false]
      exact hgc

/-- Witness for claim C8 at a concrete map with a released flag. -/
theorem drop_sets_flag_witness :
    flagOf (dropLease (⟨[⟨0, 0, 0⟩], [true], 1⟩ : HashMap Nat Nat) 0).flags 0 = true ∧
    (dropLease (⟨[⟨0, 0, 0⟩], [true], 1⟩ : HashMap Nat Nat) 0).gcCtr
      = (⟨[⟨0, 0, 0⟩], [true], 1⟩ : HashMap Nat Nat).gcCtr + 1 ∧
    (flagOf ((⟨[⟨0, 0, 0⟩], [true], 1⟩ : HashMap Nat Nat).insert 1 5).1.flags 0 = true ∧
      flagOf ((⟨[⟨0, 0, 0⟩], [true], 1⟩ : HashMap Nat Nat).get 1).1.flags 0 = true ∧
      flagOf ((⟨[⟨0, 0, 0⟩], [true], 1⟩ : HashMap Nat Nat).getMut 1).1.flags 0 = true ∧
      flagOf (⟨[⟨0, 0, 0⟩], [true], 1⟩ : HashMap Nat Nat).gc.flags 0 = true ∧
      flagOf ((⟨[⟨0, 0, 0⟩], [true], 1⟩ : HashMap Nat Nat).entry 1).1.flags 0 = true ∧
      flagOf (orInsertWith (⟨[⟨0, 0, 0⟩], [true], 1⟩ : HashMap Nat Nat) 1
        (fun _ => 9)).1.flags 0 = true ∧
      flagOf (dropLease (⟨[⟨0, 0, 0⟩], [true], 1⟩ : HashMap Nat Nat) 0).flags 0 = true) :=
  ⟨(drop_sets_flag_and_counter ⟨[⟨0, 0, 0⟩], [true], 1⟩ 0 0 0 1 5 (fun _ => 9)
      (by decide)).1,
   (drop_sets_flag_and_counter ⟨[⟨0, 0, 0⟩], [true], 1⟩ 0 0 0 1 5 (fun _ => 9)
      (by decide)).2.1,
   (drop_sets_flag_and_counter ⟨[⟨0, 0, 0⟩], [true], 1⟩ 0 0 0 1 5 (fun _ => 9)
      (by decide)).2.2 (by decide)⟩

/-- Claim C9: `get` is idempotent at the public interface: an
immediately repeated `get(k)` returns the same result and leaves the
map state unchanged, although the first call may have evicted a
released entry. -/
theorem get_idempotent [DecidableEq K] (s : HashMap K V) (k : K) (hnd : KeysNodup s.v) :
    ((s.get k).1.get k).2 = (s.get k).2 ∧ ((s.get k).1.get k).1 = (s.get k).1 := by
  have hrel : releasedAt (evict s.v s.flags k) s.flags k = false := by
    rw [evict]
    split
    · simp [releasedAt, lookup_eraseSlot_self hnd]
    · next h => simpa using h
  have hev : evict (evict s.v s.flags k) s.flags k = evict s.v s.flags k := by
    conv_lhs => rw [evict]
    rw [hrel]
    simp
  constructor
  · show (lookup (evict (evict s.v s.flags k) s.flags k) k).map Prod.fst
        = (lookup (evict s.v s.flags k) k).map Prod.fst
    rw [hev]
  · show ({ s with v := evict (evict s.v s.flags k) s.flags k } : HashMap K V)
        = { s with v := evict s.v s.flags k }
    rw [hev]

/-- Witness for claim C9 at a concrete map holding a live entry. -/
theorem get_idempotent_witness :
    ((((HashMap.new : HashMap Nat Nat).insert 0 4).1.get 0).1.get 0).2
        = (((HashMap.new : HashMap Nat Nat).insert 0 4).1.get 0).2 ∧
    ((((HashMap.new : HashMap Nat Nat).insert 0 4).1.get 0).1.get 0).1
        = (((HashMap.new : HashMap Nat Nat).insert 0 4).1.get 0).1 :=
  get_idempotent ((HashMap.new : HashMap Nat Nat).insert 0 4).1 0 (by decide)

/-- Claim C10: with at most one physical entry the trigger comparison
`counter >= len() / 2` holds even at counter zero, so every `gc()`
call — including the one at the start of `insert` and `entry` —
performs a full pass: counter reset and whole-table scan. -/
theorem gc_always_fires_on_small_table [DecidableEq K] (s : HashMap K V) (k : K) (val : V)
    (h : s.len ≤ 1) :
    s.gc.gcCtr = 0 ∧
    s.gc.v = s.v.filter (fun e => !flagOf s.flags e.fid) ∧
    (s.insert k val).1.gcCtr = 0 ∧
    (s.entry k).1.gcCtr = 0 := by
  have hng : ¬ (s.gcCtr < s.len / 2) := by
    have h2 : s.len / 2 = 0 := Nat.div_eq_of_lt (by omega)
    rw [h2]
    exact Nat.not_lt_zero _
  have hgc : s.gc
      = { s with gcCtr := 0, v := s.v.filter (fun e => !flagOf s.flags e.fid) } := by
    rw [HashMap.gc, if_neg hng]
  refine ⟨by rw [hgc], by rw [hgc], ?_, ?_⟩
  · show s.gc.gcCtr = 0
    rw [hgc]
  · show s.gc.gcCtr = 0
    rw [hgc]

/-- Witness for claim C10 at a released singleton map. -/
theorem gc_small_table_witness :
    (dropLease ((HashMap.new : HashMap Nat Nat).insert 0 0).1 0).gc.gcCtr = 0 ∧
    (dropLease ((HashMap.new : HashMap Nat Nat).insert 0 0).1 0).gc.v
      = (dropLease ((HashMap.new : HashMap Nat Nat).insert 0 0).1 0).v.filter
          (fun e => !flagOf (dropLease ((HashMap.new : HashMap Nat Nat).insert 0 0).1 0).flags e.fid) ∧
    ((dropLease ((HashMap.new : HashMap Nat Nat).insert 0 0).1 0).insert 0 3).1.gcCtr = 0 ∧
    ((dropLease ((HashMap.new : HashMap Nat Nat).insert 0 0).1 0).entry 0).1.gcCtr = 0 :=
  gc_always_fires_on_small_table
    (dropLease ((HashMap.new : HashMap Nat Nat).insert 0 0).1 0) 0 3 (by decide)

end GcMap
